import Mathlib

/-!
# Verification of the rslint file identity + position-index subsystem

Shallow embedding of `crates/rslint_cli/src/files.rs`.

Modelling conventions:
* A text buffer (`String` in Rust, indexed by byte offsets) is modelled as a
  `List Nat` of its UTF-8 bytes; the line feed character `'\n'` is the byte 10,
  and UTF-8 guarantees byte 10 occurs only as that character, so
  `source.match_indices('\n')` corresponds exactly to the byte positions
  holding 10.  All offsets and lengths are therefore byte-accurate.
* A `PathBuf` is modelled as the list of its (normal, non-empty) components;
  `Path::file_name` is the last component, `Path::to_str` joins the
  components with `/` (Unix rendering; Lean strings are always valid
  Unicode, so `to_str` never fails in the model).
* The `hashbrown::HashMap<usize, JsFile>` is modelled as an association list;
  iteration order of the map is unspecified in Rust, the list order stands
  for one such order.
* The atomic `FILE_ID_COUNTER` (`fetch_add` with `Ordering::SeqCst`) is
  modelled by threading the counter value explicitly: sequential consistency
  totally orders the increments, and each call returns the pre-increment
  value.  File reads (`read_to_string`) are modelled by passing the read's
  result (`Option` of the contents) as an argument.
* `lint_warn!` / `lint_err!` only emit diagnostics; they are no-ops in the
  model.
-/

namespace Rslint

/-- The byte value of the line feed character recognised by `line_starts`. -/
def newlineByte : Nat := 10

/-- A text buffer as its UTF-8 byte sequence. -/
abbrev Source := List Nat

/-- A filesystem path as its list of components (`PathBuf`). -/
abbrev FilePath := List String

/-- `Path::file_name`: the final component of the path, absent for an empty
path. -/
def fileName (p : FilePath) : Option String :=
  p.getLast?

/-- The suffix of a character list that follows its last `'.'`, absent when
no dot occurs. -/
def afterLastDot : List Char → Option (List Char)
  | [] => none
  | c :: rest =>
    match afterLastDot rest with
    | some e => some e
    | none => if c = '.' then some rest else none

/-- `Path::extension` of a single file name: the portion after the last dot,
except that a dot in the leading position does not count (".hidden" has no
extension). -/
def extensionOfName (n : String) : Option String :=
  match n.toList with
  | [] => none
  | _ :: rest => (afterLastDot rest).map List.asString

/-- `Path::extension`: the extension of the path's final component. -/
def pathExtension (p : FilePath) : Option String :=
  (fileName p).bind extensionOfName

/-- `Path::to_str`: the path rendered as a string (Unix separator). -/
def pathToString (p : FilePath) : String :=
  String.intercalate "/" p

/-- The byte indices at which `newlineByte` occurs in the buffer, each shifted
by the running offset `base`; `newlineIndicesFrom s 0` is
`source.match_indices('\n').map(|(i, _)| i)`. -/
def newlineIndicesFrom : Source → Nat → List Nat
  | [], _ => []
  | b :: rest, base =>
    if b = newlineByte then base :: newlineIndicesFrom rest (base + 1)
    else newlineIndicesFrom rest (base + 1)

/-- `JsFile::line_starts`: `std::iter::once(0).chain(source.match_indices('\n').map(|(i, _)| i + 1))`,
materialised as a list. -/
def lineStarts (source : Source) : List Nat :=
  0 :: (newlineIndicesFrom source 0).map (fun i => i + 1)

/-- The result of `slice::binary_search` on a sorted slice, computed by a
left-to-right scan: `Except.ok i` when the key sits at index `i`,
`Except.error j` with `j` the insertion point otherwise.  On a sorted input
this scan returns exactly the value Rust's `binary_search` contract
specifies; `base` is the index of the scan's first element. -/
def searchFrom : List Nat → Nat → Nat → Except Nat Nat
  | [], _, base => Except.error base
  | x :: rest, key, base =>
    if key < x then Except.error base
    else if key = x then Except.ok base
    else searchFrom rest key (base + 1)

/-- `JsFileKind`: script (`.js`) versus module (`.mjs`). -/
inductive JsFileKind where
  | Script
  | Module
deriving DecidableEq, Repr

/-- `JsFile`: one concrete or virtual file with its cached line-start table. -/
structure JsFile where
  source : Source
  name : String
  path : Option FilePath
  id : Nat
  kind : JsFileKind
  line_starts : List Nat
deriving DecidableEq, Repr

namespace JsFile

/-- `JsFile::new_concrete`: issues the next id from the counter (`fetch_add`
returns the pre-increment value), classifies by extension, derives the name
from the final path component, and builds the line-start table eagerly.
Returns the file together with the advanced counter. -/
def new_concrete (source : Source) (path : FilePath) (counter : Nat) :
    JsFile × Nat :=
  let id := counter
  let kind :=
    if (match pathExtension path with
        | some e => e
        | none => "") = "mjs"
    then JsFileKind.Module
    else JsFileKind.Script
  let line_starts := lineStarts source
  (⟨source,
    (match fileName path with
     | some n => n
     | none => ""),
    some path, id, kind, line_starts⟩,
   counter + 1)

/-- `JsFile::update_src`: recompute the line-start table from the new text and
store both. -/
def update_src (f : JsFile) (new : Source) : JsFile :=
  { f with line_starts := lineStarts new, source := new }

/-- `JsFile::line_start`: the recorded offset below the table's length, the
source length exactly at it, absent beyond it. -/
def line_start (f : JsFile) (line_index : Nat) : Option Nat :=
  if line_index < f.line_starts.length then f.line_starts.get? line_index
  else if line_index = f.line_starts.length then some f.source.length
  else none

/-- `JsFile::line_index`: binary search over the line-start table; a hit is
the line itself, a miss resolves to the line before the insertion point.
(The Rust `next_line - 1` is `usize` subtraction; the table always contains
`0`, so the insertion point is never `0` — proved below.) -/
def line_index (f : JsFile) (byte_index : Nat) : Nat :=
  match searchFrom f.line_starts byte_index 0 with
  | Except.ok line => line
  | Except.error next_line => next_line - 1

/-- `JsFile::line_col_to_index`: `line_start(line) + column`, no validation of
the column. -/
def line_col_to_index (f : JsFile) (line column : Nat) : Option Nat :=
  (f.line_start line).map (fun start => start + column)

/-- A half-open byte range, `std::ops::Range<usize>`. -/
structure ByteRange where
  start : Nat
  stop : Nat
deriving DecidableEq, Repr

/-- `JsFile::line_range`: `[line_start(i), line_start(i+1))`, absent when
either endpoint lookup fails. -/
def line_range (f : JsFile) (line_index : Nat) : Option ByteRange :=
  match f.line_start line_index with
  | none => none
  | some ls =>
    match f.line_start (line_index + 1) with
    | none => none
    | some nls => some ⟨ls, nls⟩

/-- The invariant the code maintains: the cached table is the one computed
from the current source. -/
def Wf (f : JsFile) : Prop :=
  f.line_starts = lineStarts f.source

instance (f : JsFile) : Decidable f.Wf := by
  unfold Wf; infer_instance

end JsFile

/-- `FileWalker`: the identifier-to-record table. -/
structure FileWalker where
  files : List (Nat × JsFile)
deriving DecidableEq, Repr

namespace FileWalker

/-- `self.files.get(&id)`: association-list lookup. -/
def get (w : FileWalker) (id : Nat) : Option JsFile :=
  (w.files.find? (fun p => p.1 = id)).map Prod.snd

/-- `FileWalker::empty`. -/
def empty : FileWalker := ⟨[]⟩

/-- `Files::name` for `FileWalker`: the path rendered as a string when the
record has one (Lean strings are valid Unicode, so `to_str` succeeds),
otherwise the stored display name. -/
def name (w : FileWalker) (id : Nat) : Option String :=
  (w.get id).map (fun entry =>
    match entry.path with
    | some p => pathToString p
    | none => entry.name)

/-- `Files::source` for `FileWalker`. -/
def source (w : FileWalker) (id : Nat) : Option Source :=
  (w.get id).map JsFile.source

/-- `Files::line_index` for `FileWalker`. -/
def line_index (w : FileWalker) (id : Nat) (byte_index : Nat) : Option Nat :=
  (w.get id).map (fun f => f.line_index byte_index)

/-- `Files::line_range` for `FileWalker`. -/
def line_range (w : FileWalker) (id : Nat) (line_index : Nat) :
    Option JsFile.ByteRange :=
  (w.get id).bind (fun f => f.line_range line_index)

/-- `FileWalker::line_start`. -/
def line_start (w : FileWalker) (id : Nat) (line_index : Nat) : Option Nat :=
  (w.get id).bind (fun f => f.line_start line_index)

/-- One pass of `load_files` over the already-read `(content, path)` pairs:
each successful read becomes a record via `new_concrete`, threading the id
counter (sequential consistency totally orders the `fetch_add`s). -/
def loadBatch : List (Source × FilePath) → Nat → List (Nat × JsFile) × Nat
  | [], counter => ([], counter)
  | (src, path) :: rest, counter =>
    let fc := JsFile.new_concrete src path counter
    let tail := loadBatch rest fc.2
    ((fc.1.id, fc.1) :: tail.1, tail.2)

/-- `FileWalker::load_files` after filtering and reading: merge the freshly
built records into the table (`HashMap::extend`; the new keys are fresh, so
no key collides with an existing one). -/
def load_files (w : FileWalker) (batch : List (Source × FilePath))
    (counter : Nat) : FileWalker × Nat :=
  let lb := loadBatch batch counter
  (⟨w.files ++ lb.1⟩, lb.2)

/-- Does this record match the refresh path — a stored path whose final
component equals the given path's final component
(`f.path.clone().map_or(false, |x| x.file_name() == path.file_name())`)? -/
def matchesPath (target : FilePath) (f : JsFile) : Bool :=
  match f.path with
  | none => false
  | some x => fileName x = fileName target

/-- Update the first entry whose record satisfies `p`, leaving keys and every
other entry unchanged (`values_mut().find`). -/
def updateFirst (p : JsFile → Bool) (upd : JsFile → JsFile) :
    List (Nat × JsFile) → List (Nat × JsFile)
  | [] => []
  | (id, f) :: rest =>
    if p f then (id, upd f) :: rest
    else (id, f) :: updateFirst p upd rest

/-- `FileWalker::maybe_update_file_src`: find the first record whose path's
final component matches the given path's; when one exists and the read
succeeds, store the new source and recompute its line starts in place; a
failed read only warns; no match leaves the table untouched (the read is
never attempted). -/
def maybe_update_file_src (w : FileWalker) (path : FilePath)
    (readResult : Option Source) : FileWalker :=
  match w.files.find? (fun p => matchesPath path p.2) with
  | none => w
  | some _ =>
    match readResult with
    | none => w
    | some src =>
      ⟨updateFirst (matchesPath path)
        (fun f => { f with source := src, line_starts := lineStarts src })
        w.files⟩

/-- The states `(walker, counter)` reachable through the public operations,
starting from the process state: an empty table and the counter at `1`. -/
inductive Reachable : FileWalker → Nat → Prop where
  | empty : Reachable FileWalker.empty 1
  | load (batch : List (Source × FilePath)) {w : FileWalker} {c : Nat} :
      Reachable w c →
      Reachable (w.load_files batch c).1 (w.load_files batch c).2
  | update (path : FilePath) (readResult : Option Source)
      {w : FileWalker} {c : Nat} :
      Reachable w c →
      Reachable (w.maybe_update_file_src path readResult) c

end FileWalker

/-! ## Properties of the line-start table -/

theorem newlineIndicesFrom_bounds (s : Source) (base : Nat) :
    ∀ x ∈ newlineIndicesFrom s base, base ≤ x ∧ x < base + s.length := by
  induction s generalizing base with
  | nil => intro x hx; simp [newlineIndicesFrom] at hx
  | cons b rest ih =>
    intro x hx
    rw [newlineIndicesFrom] at hx
    split at hx
    · rcases List.mem_cons.mp hx with rfl | hmem
      · simp only [List.length_cons]; omega
      · have h := ih (base + 1) x hmem
        simp only [List.length_cons]; omega
    · have h := ih (base + 1) x hx
      simp only [List.length_cons]; omega

theorem newlineIndicesFrom_pairwise (s : Source) (base : Nat) :
    List.Pairwise (· < ·) (newlineIndicesFrom s base) := by
  induction s generalizing base with
  | nil => simp [newlineIndicesFrom]
  | cons b rest ih =>
    rw [newlineIndicesFrom]
    split
    · refine List.pairwise_cons.mpr ⟨?_, ih (base + 1)⟩
      intro y hy
      have := newlineIndicesFrom_bounds rest (base + 1) y hy
      omega
    · exact ih (base + 1)

theorem lineStarts_pairwise (s : Source) :
    List.Pairwise (· < ·) (lineStarts s) := by
  rw [lineStarts]
  refine List.pairwise_cons.mpr ⟨?_, ?_⟩
  · intro y hy
    rcases List.mem_map.mp hy with ⟨x, _, rfl⟩
    omega
  · exact List.Pairwise.map _ (fun a b h => by omega)
      (newlineIndicesFrom_pairwise s 0)

theorem lineStarts_le_length (s : Source) :
    ∀ x ∈ lineStarts s, x ≤ s.length := by
  intro x hx
  rw [lineStarts] at hx
  rcases List.mem_cons.mp hx with rfl | hx
  · exact Nat.zero_le _
  · rcases List.mem_map.mp hx with ⟨y, hy, rfl⟩
    have := newlineIndicesFrom_bounds s 0 y hy
    omega

theorem lineStarts_ne_nil (s : Source) : lineStarts s ≠ [] := by
  simp [lineStarts]

/-! ## Helper facts about `takeWhile` -/

theorem takeWhile_all {p : Nat → Bool} {l : List Nat}
    (h : ∀ x ∈ l, p x = true) : l.takeWhile p = l := by
  induction l with
  | nil => rfl
  | cons x rest ih =>
    rw [List.takeWhile_cons, if_pos (h x (List.mem_cons_self x rest))]
    rw [ih (fun y hy => h y (List.mem_cons_of_mem x hy))]

theorem takeWhile_append_all {p : Nat → Bool} {l1 l2 : List Nat}
    (h : ∀ x ∈ l1, p x = true) :
    (l1 ++ l2).takeWhile p = l1 ++ l2.takeWhile p := by
  induction l1 with
  | nil => simp
  | cons x rest ih =>
    rw [List.cons_append, List.takeWhile_cons,
      if_pos (h x (List.mem_cons_self x rest)),
      ih (fun y hy => h y (List.mem_cons_of_mem x hy)), List.cons_append]

theorem length_takeWhile_le (p : Nat → Bool) (l : List Nat) :
    (l.takeWhile p).length ≤ l.length :=
  ( List.takeWhile_prefix p).length_le

theorem length_takeWhile_lt_of_mem {p : Nat → Bool} {l : List Nat} {a : Nat}
    (ha : a ∈ l) (hpa : p a = false) :
    (l.takeWhile p).length < l.length := by
  induction l with
  | nil => cases ha
  | cons x rest ih =>
    rw [List.takeWhile_cons]
    by_cases hx : p x = true
    · rw [if_pos hx]
      rcases List.mem_cons.mp ha with rfl | ha2
      · rw [hx] at hpa; cases hpa
      · simpa using Nat.succ_lt_succ (ih ha2)
    · rw [if_neg hx]
      simp

/-! ## The binary-search characterisation on sorted tables -/

/-- On a strictly sorted list, the scan `searchFrom` returns exactly what the
`binary_search` contract specifies: a hit at the key's index, otherwise the
insertion point, which is the number of elements strictly below the key. -/
theorem searchFrom_sorted (ls : List Nat) (key base : Nat)
    (hs : List.Pairwise (· < ·) ls) :
    searchFrom ls key base =
      if key ∈ ls then
        Except.ok (base + (ls.takeWhile (fun x => x < key)).length)
      else
        Except.error (base + (ls.takeWhile (fun x => x < key)).length) := by
  induction ls generalizing base with
  | nil => simp [searchFrom]
  | cons x rest ih =>
    rcases List.pairwise_cons.mp hs with ⟨hx, hrest⟩
    rw [searchFrom]
    rcases Nat.lt_trichotomy key x with hlt | heq | hgt
    · have hnotmem : key ∉ x :: rest := by
        intro hmem
        rcases List.mem_cons.mp hmem with rfl | hmem
        · omega
        · have := hx key hmem; omega
      rw [if_pos hlt, if_neg hnotmem, List.takeWhile_cons,
        if_neg (by simpa using Nat.not_lt.mpr (Nat.le_of_lt hlt))]
      simp
    · subst heq
      rw [if_neg (lt_irrefl key), if_pos rfl,
        if_pos (List.mem_cons_self key rest), List.takeWhile_cons,
        if_neg (by simp)]
      simp
    · rw [if_neg (by omega), if_neg (by omega), ih (base + 1) hrest,
        List.takeWhile_cons]
      have hd : decide (x < key) = true := by simpa using hgt
      rw [hd, if_pos rfl]
      have hmemiff : key ∈ x :: rest ↔ key ∈ rest := by
        rw [List.mem_cons]
        constructor
        · rintro (rfl | h)
          · omega
          · exact h
        · exact Or.inr
      by_cases hmem : key ∈ rest
      · rw [if_pos hmem, if_pos (hmemiff.mpr hmem)]
        simp only [List.length_cons]
        congr 1
        omega
      · rw [if_neg hmem, if_neg (fun h => hmem (hmemiff.mp h))]
        simp only [List.length_cons]
        congr 1
        omega

/-- The newline positions collected by the scan are exactly the indices of
the buffer that hold the newline byte, each shifted by the base offset. -/
theorem newlineIndicesFrom_eq (s : Source) (base : Nat) :
    newlineIndicesFrom s base =
      ((List.range s.length).filter
        (fun i => s.get? i = some newlineByte)).map (fun i => base + i) := by
  induction s generalizing base with
  | nil => simp [newlineIndicesFrom]
  | cons b rest ih =>
    have hpred : ((fun i => decide ((b :: rest).get? i = some newlineByte))
        ∘ Nat.succ) = (fun i => decide (rest.get? i = some newlineByte)) := by
      funext i
      simp
    rw [newlineIndicesFrom, List.length_cons, List.range_succ_eq_map,
      List.filter_cons, List.filter_map, hpred]
    have hf : ((fun i => base + i) ∘ Nat.succ) = fun i => base + 1 + i := by
      funext i
      simp only [Function.comp_apply]
      omega
    by_cases hb : b = newlineByte
    · rw [if_pos hb, if_pos (by simp [hb]), List.map_cons, ih (base + 1),
        List.map_map, hf]
      simp
    · rw [if_neg hb, if_neg (by simp [hb]), ih (base + 1),
        List.map_map, hf]

theorem mem_take_lt_get {ls : List Nat} (hs : List.Pairwise (· < ·) ls)
    {i : Nat} (hi : i < ls.length) :
    ∀ x ∈ ls.take i, x < ls.get ⟨i, hi⟩ := by
  have hp : List.Pairwise (· < ·) (ls.take i ++ ls.drop i) := by
    rw [List.take_append_drop]; exact hs
  have hcross := (List.pairwise_append.mp hp).2.2
  intro x hx
  refine hcross x hx _ ?_
  rw [← List.get_cons_drop ls ⟨i, hi⟩]
  exact List.mem_cons_self _ _

theorem mem_take_succ_le_get {ls : List Nat} (hs : List.Pairwise (· < ·) ls)
    {i : Nat} (hi : i < ls.length) :
    ∀ x ∈ ls.take (i + 1), x ≤ ls.get ⟨i, hi⟩ := by
  intro x hx
  rw [List.take_succ] at hx
  rcases List.mem_append.mp hx with hx | hx
  · exact Nat.le_of_lt (mem_take_lt_get hs hi x hx)
  · simp only [List.getElem?_eq_getElem hi, Option.toList_some,
      List.mem_singleton] at hx
    exact le_of_eq hx

theorem mem_dropLast_lt_getLast {ls : List Nat}
    (hs : List.Pairwise (· < ·) ls) (h : ls ≠ []) :
    ∀ x ∈ ls.dropLast, x < ls.getLast h := by
  have hp : List.Pairwise (· < ·) (ls.dropLast ++ [ls.getLast h]) := by
    rw [List.dropLast_append_getLast]; exact hs
  have hcross := (List.pairwise_append.mp hp).2.2
  intro x hx
  exact hcross x hx _ (List.mem_singleton_self _)

theorem mem_le_getLast {ls : List Nat} (hs : List.Pairwise (· < ·) ls)
    (h : ls ≠ []) : ∀ x ∈ ls, x ≤ ls.getLast h := by
  intro x hx
  rw [← List.dropLast_append_getLast h] at hx
  rcases List.mem_append.mp hx with hx | hx
  · exact Nat.le_of_lt (mem_dropLast_lt_getLast hs h x hx)
  · exact le_of_eq (List.mem_singleton.mp hx)

/-- When the first `j` elements all lie below `o` and the `(j+1)`-st (when it
exists) does not, the `takeWhile` prefix below `o` has length exactly `j`. -/
theorem length_takeWhile_eq_of_split {ls : List Nat} {o j : Nat}
    (hj : j ≤ ls.length)
    (hall : ∀ x ∈ ls.take j, x < o)
    (hstop : ∀ y t, ls.drop j = y :: t → ¬ y < o) :
    (ls.takeWhile (fun x => x < o)).length = j := by
  conv_lhs => rw [← List.take_append_drop j ls]
  rw [takeWhile_append_all (fun x hx => by simpa using hall x hx),
    List.length_append, List.length_take, Nat.min_eq_left hj]
  cases hd : ls.drop j with
  | nil => simp [hd]
  | cons y t =>
    rw [List.takeWhile_cons, if_neg (by simpa using hstop y t hd)]
    simp

/-- A sample concrete file used by the witnesses: the spec's scenario text
`"a\nbb\nccc"` ingested from the path `f.js` with the counter at `1`. -/
def sampleFile : JsFile :=
  (JsFile.new_concrete [97, 10, 98, 98, 10, 99, 99, 99] ["f.js"] 1).1

/-! ## The claims -/

/-- C2: `JsFile::line_start(i)` returns the recorded offset when `i` is below
the table's length, the source length when `i` equals it, and `none` when `i`
exceeds it; when the table is the one computed from the source, `line_start 0`
is `0` and `line_start line_count` is the source length. -/
theorem c2_line_start_boundaries (f : JsFile) (i : Nat) :
    (∀ h : i < f.line_starts.length,
      f.line_start i = some (f.line_starts.get ⟨i, h⟩)) ∧
    (i = f.line_starts.length → f.line_start i = some f.source.length) ∧
    (f.line_starts.length < i → f.line_start i = none) ∧
    (f.Wf →
      f.line_start 0 = some 0 ∧
      f.line_start f.line_starts.length = some f.source.length) := by
  refine ⟨?_, ?_, ?_, ?_⟩
  · intro h
    rw [JsFile.line_start, if_pos h, List.get?_eq_get h]
  · intro h
    rw [JsFile.line_start, if_neg (by omega), if_pos h]
  · intro h
    rw [JsFile.line_start, if_neg (by omega), if_neg (by omega)]
  · intro hwf
    constructor
    · have hlen : 0 < f.line_starts.length := by
        rw [hwf, lineStarts]
        simp
      rw [JsFile.line_start, if_pos hlen, hwf, lineStarts]
      rfl
    · rw [JsFile.line_start, if_neg (lt_irrefl _), if_pos rfl]

/-- C2 witness: the scenario file has three recorded line starts; index `3`
resolves to the source length `8`, index `0` to offset `0`. -/
theorem c2_line_start_boundaries_witness :
    sampleFile.line_start 3 = some 8 ∧ sampleFile.line_start 0 = some 0 :=
  ⟨(c2_line_start_boundaries sampleFile 3).2.1 (by decide),
   ((c2_line_start_boundaries sampleFile 0).2.2.2 (by decide)).1⟩

/-- C4: `JsFile::line_starts` yields exactly `0` followed by `i + 1` for each
byte index `i` holding `'\n'`, in order (no other byte contributes an entry);
the table is non-empty, strictly increasing, and starts with `0`. -/
theorem c4_line_starts_exact (s : Source) :
    lineStarts s =
      0 :: ((List.range s.length).filter
        (fun i => s.get? i = some newlineByte)).map (fun i => i + 1) ∧
    lineStarts s ≠ [] ∧
    List.Pairwise (· < ·) (lineStarts s) ∧
    (lineStarts s).head? = some 0 := by
  refine ⟨?_, lineStarts_ne_nil s, lineStarts_pairwise s, ?_⟩
  · have hf : ((fun i => i + 1) ∘ fun i => 0 + i) = fun i => i + 1 := by
      funext i
      simp only [Function.comp_apply]
      omega
    rw [lineStarts, newlineIndicesFrom_eq s 0, List.map_map, hf]
  · rw [lineStarts]
    rfl

/-- C1: an offset between the start of line `i` (inclusive) and the next
line start (exclusive, where the boundary past the last recorded line is the
source length) resolves to line `i`; in particular an offset exactly at a
recorded line start maps back to that line. -/
theorem c1_line_index_inverts_line_start (f : JsFile) (hwf : f.Wf)
    (i o next : Nat) (hi : i < f.line_starts.length)
    (hlo : f.line_starts.get ⟨i, hi⟩ ≤ o)
    (hnext : f.line_start (i + 1) = some next) (hhi : o < next) :
    f.line_index o = i := by
  have hs : List.Pairwise (· < ·) f.line_starts := by
    rw [hwf]; exact lineStarts_pairwise f.source
  have hmono : ∀ (a b : Fin f.line_starts.length),
      a < b → f.line_starts.get a < f.line_starts.get b :=
    fun a b h => List.pairwise_iff_get.mp hs a b h
  have hnexti : ∀ h2 : i + 1 < f.line_starts.length,
      next = f.line_starts.get ⟨i + 1, h2⟩ := by
    intro h2
    rw [JsFile.line_start, if_pos h2, List.get?_eq_get h2] at hnext
    exact (Option.some_inj.mp hnext).symm
  rw [JsFile.line_index, searchFrom_sorted f.line_starts o 0 hs]
  by_cases ho : o = f.line_starts.get ⟨i, hi⟩
  · have hmem : o ∈ f.line_starts := List.mem_iff_get.mpr ⟨⟨i, hi⟩, ho.symm⟩
    rw [if_pos hmem]
    have htw : (f.line_starts.takeWhile (fun x => x < o)).length = i := by
      apply length_takeWhile_eq_of_split (Nat.le_of_lt hi)
      · intro x hx
        exact ho ▸ mem_take_lt_get hs hi x hx
      · intro y t hdt
        have hdrop := List.get_cons_drop f.line_starts ⟨i, hi⟩
        rw [← hdrop] at hdt
        have hy : y = f.line_starts.get ⟨i, hi⟩ := (List.cons_eq_cons.mp hdt).1.symm
        omega
    simp [htw]
  · have hlt : f.line_starts.get ⟨i, hi⟩ < o :=
      lt_of_le_of_ne hlo (fun h => ho h.symm)
    have hmem : o ∉ f.line_starts := by
      intro hmem
      rcases List.mem_iff_get.mp hmem with ⟨⟨j, hj⟩, hget⟩
      rcases Nat.lt_or_ge j (i + 1) with hj2 | hj2
      · have hle : f.line_starts.get ⟨j, hj⟩ ≤ f.line_starts.get ⟨i, hi⟩ := by
          rcases Nat.lt_or_ge j i with h | h
          · exact Nat.le_of_lt (hmono ⟨j, hj⟩ ⟨i, hi⟩ h)
          · have hji : j = i := by omega
            subst hji
            exact le_rfl
        omega
      · have h2 : i + 1 < f.line_starts.length := by omega
        have hle : f.line_starts.get ⟨i + 1, h2⟩ ≤ f.line_starts.get ⟨j, hj⟩ := by
          rcases Nat.lt_or_ge (i + 1) j with h | h
          · exact Nat.le_of_lt (hmono ⟨i + 1, h2⟩ ⟨j, hj⟩ h)
          · have hji : i + 1 = j := by omega
            subst hji
            exact le_rfl
        have := hnexti h2
        omega
    rw [if_neg hmem]
    have htw : (f.line_starts.takeWhile (fun x => x < o)).length = i + 1 := by
      apply length_takeWhile_eq_of_split hi
      · intro x hx
        have := mem_take_succ_le_get hs hi x hx
        omega
      · intro y t hdt
        have h2 : i + 1 < f.line_starts.length := by
          have := congrArg List.length hdt
          simp only [List.length_drop, List.length_cons] at this
          omega
        have hdrop := List.get_cons_drop f.line_starts ⟨i + 1, h2⟩
        rw [← hdrop] at hdt
        have hy : y = f.line_starts.get ⟨i + 1, h2⟩ :=
          (List.cons_eq_cons.mp hdt).1.symm
        have := hnexti h2
        omega
    simp [htw]

/-- C1 witness: in the scenario file with line starts `[0, 2, 5]`, the offset
`3` (strictly inside line `1`) resolves to line `1`, and the offset `5`
(exactly a recorded line start) resolves to line `2`. -/
theorem c1_line_index_inverts_line_start_witness :
    sampleFile.line_index 3 = 1 ∧ sampleFile.line_index 5 = 2 :=
  ⟨c1_line_index_inverts_line_start sampleFile (by decide) 1 3 5 (by decide)
      (by decide) (by decide) (by decide),
   c1_line_index_inverts_line_start sampleFile (by decide) 2 5 8 (by decide)
      (by decide) (by decide) (by decide)⟩

/-- C10: `JsFile::line_index` is total — the insertion point of a search miss
is never `0` (so the `usize` subtraction `next_line - 1` cannot underflow),
the returned line number is always a valid index of the table, and every
offset at or beyond the last recorded line start resolves to the last line. -/
theorem c10_line_index_never_underflows (f : JsFile) (hwf : f.Wf) (o : Nat) :
    (∀ j, searchFrom f.line_starts o 0 = Except.error j → 1 ≤ j) ∧
    f.line_index o < f.line_starts.length ∧
    (∀ h : f.line_starts ≠ [],
      f.line_starts.getLast h ≤ o →
      f.line_index o = f.line_starts.length - 1) := by
  have hs : List.Pairwise (· < ·) f.line_starts := by
    rw [hwf]; exact lineStarts_pairwise f.source
  have hzm : (0 : Nat) ∈ f.line_starts := by
    rw [hwf, lineStarts]; exact List.mem_cons_self _ _
  have hne : f.line_starts ≠ [] := by
    rw [hwf]; exact lineStarts_ne_nil f.source
  have hlen1 : 1 ≤ f.line_starts.length :=
    List.length_pos.mpr hne
  refine ⟨?_, ?_, ?_⟩
  · intro j hj
    rw [searchFrom_sorted _ o 0 hs] at hj
    by_cases hmem : o ∈ f.line_starts
    · rw [if_pos hmem] at hj
      simp at hj
    · rw [if_neg hmem] at hj
      have ho : 0 < o := by
        rcases Nat.eq_zero_or_pos o with rfl | h
        · exact absurd hzm hmem
        · exact h
      have h1 : 1 ≤ (f.line_starts.takeWhile (fun x => x < o)).length := by
        rw [hwf, lineStarts, List.takeWhile_cons, if_pos (by simpa using ho)]
        simp
      injection hj with hj2
      omega
  · rw [JsFile.line_index, searchFrom_sorted _ o 0 hs]
    by_cases hmem : o ∈ f.line_starts
    · rw [if_pos hmem]
      have := @length_takeWhile_lt_of_mem (fun x => decide (x < o))
        f.line_starts o hmem (by simp)
      simpa using this
    · rw [if_neg hmem]
      have := length_takeWhile_le (fun x => decide (x < o)) f.line_starts
      simp only []
      omega
  · intro h hge
    rw [JsFile.line_index, searchFrom_sorted _ o 0 hs]
    by_cases hmem : o ∈ f.line_starts
    · have hle := mem_le_getLast hs h o hmem
      have ho : o = f.line_starts.getLast h := le_antisymm hle hge
      rw [if_pos hmem]
      have htw : (f.line_starts.takeWhile (fun x => x < o)).length
          = f.line_starts.length - 1 := by
        apply length_takeWhile_eq_of_split (by omega)
        · intro x hx
          rw [← List.dropLast_eq_take] at hx
          have := mem_dropLast_lt_getLast hs h x hx
          omega
        · intro y t hdt
          have h2 : f.line_starts.length - 1 < f.line_starts.length := by omega
          have hdrop := List.get_cons_drop f.line_starts
            ⟨f.line_starts.length - 1, h2⟩
          rw [← hdrop] at hdt
          have hy : y = f.line_starts.get ⟨f.line_starts.length - 1, h2⟩ :=
            (List.cons_eq_cons.mp hdt).1.symm
          have hlast : f.line_starts.getLast h
              = f.line_starts.get ⟨f.line_starts.length - 1, h2⟩ :=
            List.getLast_eq_get f.line_starts h
          omega
      simp [htw]
    · have hallo : ∀ x ∈ f.line_starts, x < o := by
        intro x hx
        have hle := mem_le_getLast hs h x hx
        have hxo : x ≠ o := fun he => hmem (he ▸ hx)
        omega
      rw [if_neg hmem]
      have htw : f.line_starts.takeWhile (fun x => x < o) = f.line_starts :=
        takeWhile_all (fun x hx => by simpa using hallo x hx)
      simp [htw]

/-- C10 witness: in the scenario file (line starts `[0, 2, 5]`, source length
`8`) the out-of-buffer offset `100` still resolves to a valid line, the last
one. -/
theorem c10_line_index_never_underflows_witness :
    sampleFile.line_index 100 < sampleFile.line_starts.length ∧
    sampleFile.line_index 100 = sampleFile.line_starts.length - 1 :=
  ⟨(c10_line_index_never_underflows sampleFile (by decide) 100).2.1,
   (c10_line_index_never_underflows sampleFile (by decide) 100).2.2
     (by decide) (by decide)⟩

/-- C3: `JsFile::line_range(i)` is the half-open range from `line_start(i)`
to `line_start(i+1)` when `i` is below the table's length and absent
otherwise; on the scenario text `"a\nbb\nccc"` the table is `[0, 2, 5]`,
offset `5` is on line `2`, `line_range 1 = [2, 5)`, `line_range 2 = [5, 8)`,
and `line_range 3` is absent. -/
theorem c3_line_range_spec (f : JsFile) (i : Nat) :
    (i < f.line_starts.length →
      ∃ a b, f.line_start i = some a ∧ f.line_start (i + 1) = some b ∧
        f.line_range i = some ⟨a, b⟩) ∧
    (f.line_starts.length ≤ i → f.line_range i = none) ∧
    (sampleFile.line_starts = [0, 2, 5] ∧
      sampleFile.line_index 5 = 2 ∧
      sampleFile.line_range 1 = some ⟨2, 5⟩ ∧
      sampleFile.line_range 2 = some ⟨5, 8⟩ ∧
      sampleFile.line_range 3 = none) := by
  refine ⟨?_, ?_, by decide⟩
  · intro h
    have ha : ∃ a, f.line_start i = some a := by
      rw [JsFile.line_start, if_pos h, List.get?_eq_get h]
      exact ⟨_, rfl⟩
    have hb : ∃ b, f.line_start (i + 1) = some b := by
      rcases Nat.lt_or_ge (i + 1) f.line_starts.length with h2 | h2
      · rw [JsFile.line_start, if_pos h2, List.get?_eq_get h2]
        exact ⟨_, rfl⟩
      · have heq : i + 1 = f.line_starts.length := by omega
        rw [JsFile.line_start, if_neg (by omega), if_pos heq]
        exact ⟨_, rfl⟩
    obtain ⟨a, ha⟩ := ha
    obtain ⟨b, hb⟩ := hb
    refine ⟨a, b, ha, hb, ?_⟩
    rw [JsFile.line_range, ha, hb]
  · intro h
    have hnone : f.line_start (i + 1) = none := by
      rw [JsFile.line_start, if_neg (by omega), if_neg (by omega)]
    rw [JsFile.line_range]
    cases hls : f.line_start i with
    | none => rfl
    | some a => rw [hnone]

/-- C3 witness: line `3` of the scenario file (out of range) has no range,
and line `1` has the range `[2, 5)`. -/
theorem c3_line_range_spec_witness :
    sampleFile.line_range 3 = none ∧
    (∃ a b, sampleFile.line_start 1 = some a ∧
      sampleFile.line_start 2 = some b ∧
      sampleFile.line_range 1 = some ⟨a, b⟩) :=
  ⟨(c3_line_range_spec sampleFile 3).2.1 (by decide),
   (c3_line_range_spec sampleFile 1).1 (by decide)⟩

/-- Every entry of `updateFirst p upd l` is an entry of `l`, or `upd` applied
to the record of an entry of `l` under the same key. -/
theorem mem_updateFirst {p : JsFile → Bool} {upd : JsFile → JsFile}
    {l : List (Nat × JsFile)} {e : Nat × JsFile}
    (he : e ∈ FileWalker.updateFirst p upd l) :
    e ∈ l ∨ ∃ e2 ∈ l, e = (e2.1, upd e2.2) := by
  induction l with
  | nil => simp [FileWalker.updateFirst] at he
  | cons x rest ih =>
    obtain ⟨k, g⟩ := x
    simp only [FileWalker.updateFirst] at he
    by_cases hp : p g
    · rw [if_pos hp] at he
      rcases List.mem_cons.mp he with rfl | he2
      · exact Or.inr ⟨(k, g), List.mem_cons_self _ _, rfl⟩
      · exact Or.inl (List.mem_cons_of_mem _ he2)
    · rw [if_neg hp] at he
      rcases List.mem_cons.mp he with rfl | he2
      · exact Or.inl (List.mem_cons_self _ _)
      · rcases ih he2 with h | ⟨e2, he3, hee⟩
        · exact Or.inl (List.mem_cons_of_mem _ h)
        · exact Or.inr ⟨e2, List.mem_cons_of_mem _ he3, hee⟩

/-- C5: every mutation of a record's source text leaves the cached line-start
table equal to the one recomputed from the current text: `new_concrete`
builds it from its source, `update_src` rebuilds it from the new source, and
`maybe_update_file_src` preserves the invariant for every record in the
table. -/
theorem c5_index_always_consistent :
    (∀ (src : Source) (path : FilePath) (c : Nat),
      (JsFile.new_concrete src path c).1.Wf) ∧
    (∀ (f : JsFile) (new : Source), (f.update_src new).Wf) ∧
    (∀ (w : FileWalker) (path : FilePath) (r : Option Source),
      (∀ p ∈ w.files, p.2.Wf) →
      ∀ p ∈ (w.maybe_update_file_src path r).files, p.2.Wf) := by
  refine ⟨fun _ _ _ => rfl, fun _ _ => rfl, ?_⟩
  intro w path r hw p hp
  rw [FileWalker.maybe_update_file_src.eq_def] at hp
  cases hfind : w.files.find? (fun q => FileWalker.matchesPath path q.2) with
  | none =>
    rw [hfind] at hp
    exact hw p hp
  | some e =>
    rw [hfind] at hp
    cases r with
    | none => exact hw p hp
    | some src =>
      rcases mem_updateFirst hp with h | ⟨e2, he2, rfl⟩
      · exact hw p h
      · rfl

/-- C5 witness: refreshing the scenario walker at a matching path with the
text `"k\n"` leaves the updated record's table consistent with its new
source. -/
theorem c5_index_always_consistent_witness :
    (1, sampleFile.update_src [107, 10]) ∈
      ((FileWalker.mk [(1, sampleFile)]).maybe_update_file_src ["f.js"]
        (some [107, 10])).files ∧
    (1, sampleFile.update_src [107, 10]).2.Wf :=
  ⟨by decide,
   (c5_index_always_consistent.2.2 (FileWalker.mk [(1, sampleFile)]) ["f.js"]
      (some [107, 10]) (by decide)) (1, sampleFile.update_src [107, 10])
      (by decide)⟩

/-- Under distinct keys, updating the first record matching `p` changes the
lookup of exactly the found entry's key, to `upd` of its record, and no
other lookup. -/
theorem find_updateFirst {l : List (Nat × JsFile)} {p : JsFile → Bool}
    {upd : JsFile → JsFile} {i : Nat} {f : JsFile}
    (hnodup : (l.map Prod.fst).Nodup)
    (hfind : l.find? (fun e => p e.2) = some (i, f)) :
    (FileWalker.updateFirst p upd l).find? (fun e => e.1 = i)
      = some (i, upd f) ∧
    (∀ j, j ≠ i →
      (FileWalker.updateFirst p upd l).find? (fun e => e.1 = j)
        = l.find? (fun e => e.1 = j)) := by
  induction l with
  | nil => simp at hfind
  | cons x rest ih =>
    obtain ⟨k, g⟩ := x
    rw [List.map_cons, List.nodup_cons] at hnodup
    obtain ⟨hknotin, hndrest⟩ := hnodup
    by_cases hp : p g
    · rw [List.find?_cons_of_pos _ (by simpa using hp)] at hfind
      have hki : k = i := congrArg Prod.fst (Option.some_inj.mp hfind)
      have hgf : g = f := congrArg Prod.snd (Option.some_inj.mp hfind)
      subst hki
      subst hgf
      simp only [FileWalker.updateFirst, if_pos hp]
      constructor
      · rw [List.find?_cons_of_pos _ (by simp)]
      · intro j hj
        rw [List.find?_cons_of_neg _ (by simpa using (Ne.symm hj)),
          List.find?_cons_of_neg _ (by simpa using (Ne.symm hj))]
    · rw [List.find?_cons_of_neg _ (by simpa using hp)] at hfind
      have hmem := List.mem_of_find?_eq_some hfind
      have hki : k ≠ i := by
        intro hk
        exact hknotin (hk ▸ List.mem_map.mpr ⟨(i, f), hmem, rfl⟩)
      simp only [FileWalker.updateFirst, if_neg hp]
      obtain ⟨ih1, ih2⟩ := ih hndrest hfind
      constructor
      · rw [List.find?_cons_of_neg _ (by simpa using hki), ih1]
      · intro j hj
        by_cases hjk : j = k
        · subst hjk
          rw [List.find?_cons_of_pos _ (by simp),
            List.find?_cons_of_pos _ (by simp)]
        · rw [List.find?_cons_of_neg _ (by simpa using (Ne.symm hjk)),
            List.find?_cons_of_neg _ (by simpa using (Ne.symm hjk)),
            ih2 j hj]

/-- C6: `maybe_update_file_src` finds a record whose stored path has the same
final component as the given path; on a successful read it replaces exactly
that record's source and recomputes its line starts, under the identifier it
already had, leaving every other identifier's lookup unchanged; a failed read
leaves the walker unchanged, and so does the absence of any matching
record. -/
theorem c6_refresh_by_basename (w : FileWalker) (path : FilePath)
    (src : Source) (i : Nat) (f : JsFile)
    (hnodup : (w.files.map Prod.fst).Nodup)
    (hfind : w.files.find? (fun e => FileWalker.matchesPath path e.2)
      = some (i, f)) :
    (∃ x, f.path = some x ∧ fileName x = fileName path) ∧
    (w.maybe_update_file_src path (some src)).get i
      = some { f with source := src, line_starts := lineStarts src } ∧
    (∀ j, j ≠ i →
      (w.maybe_update_file_src path (some src)).get j = w.get j) ∧
    w.maybe_update_file_src path none = w ∧
    (∀ (q : FilePath) (r : Option Source),
      w.files.find? (fun e => FileWalker.matchesPath q e.2) = none →
      w.maybe_update_file_src q r = w) := by
  have hprop := List.find?_some hfind
  obtain ⟨hu1, hu2⟩ := @find_updateFirst w.files
    (fun g => FileWalker.matchesPath path g)
    (fun g => { g with source := src, line_starts := lineStarts src })
    i f hnodup hfind
  refine ⟨?_, ?_, ?_, ?_, ?_⟩
  · rw [FileWalker.matchesPath] at hprop
    cases hpath : f.path with
    | none => rw [hpath] at hprop; cases hprop
    | some x =>
      rw [hpath] at hprop
      exact ⟨x, rfl, by simpa using hprop⟩
  · rw [FileWalker.maybe_update_file_src.eq_def, hfind, FileWalker.get, hu1]
    rfl
  · intro j hj
    rw [FileWalker.maybe_update_file_src.eq_def, hfind, FileWalker.get,
      FileWalker.get, hu2 j hj]
  · rw [FileWalker.maybe_update_file_src.eq_def, hfind]
  · intro q r hq
    rw [FileWalker.maybe_update_file_src.eq_def, hq]

/-- C6 witness: refreshing the scenario walker at `dir/f.js` (same base name
`f.js`) replaces record `1`'s source with `"k\n"` and its table with
`[0, 2]`, keeping its identifier. -/
theorem c6_refresh_by_basename_witness :
    ((FileWalker.mk [(1, sampleFile)]).maybe_update_file_src ["dir", "f.js"]
        (some [107, 10])).get 1
      = some (sampleFile.update_src [107, 10]) :=
  (c6_refresh_by_basename (FileWalker.mk [(1, sampleFile)]) ["dir", "f.js"]
    [107, 10] 1 sampleFile (by decide) (by decide)).2.1

/-- The identifiers issued while loading a batch are exactly the consecutive
counter values, and the counter advances by the batch's size. -/
theorem loadBatch_ids (batch : List (Source × FilePath)) (c : Nat) :
    (FileWalker.loadBatch batch c).1.map Prod.fst
      = List.range' c batch.length ∧
    (FileWalker.loadBatch batch c).2 = c + batch.length := by
  induction batch generalizing c with
  | nil => simp [FileWalker.loadBatch]
  | cons x rest ih =>
    obtain ⟨src, path⟩ := x
    obtain ⟨ih1, ih2⟩ := ih (c + 1)
    have hcc : (JsFile.new_concrete src path c).2 = c + 1 := rfl
    have hid : (JsFile.new_concrete src path c).1.id = c := rfl
    simp only [FileWalker.loadBatch, List.map_cons, List.length_cons,
      List.range'_succ, hcc, hid]
    refine ⟨?_, ?_⟩
    · rw [ih1]
    · rw [ih2]
      omega

/-- `updateFirst` never changes the keys of the table. -/
theorem updateFirst_map_fst (p : JsFile → Bool) (upd : JsFile → JsFile)
    (l : List (Nat × JsFile)) :
    (FileWalker.updateFirst p upd l).map Prod.fst = l.map Prod.fst := by
  induction l with
  | nil => rfl
  | cons x rest ih =>
    obtain ⟨k, g⟩ := x
    simp only [FileWalker.updateFirst]
    by_cases hp : p g
    · rw [if_pos hp]
      rfl
    · rw [if_neg hp, List.map_cons, List.map_cons, ih]

/-- A refresh never changes the keys of the table. -/
theorem maybe_update_map_fst (w : FileWalker) (path : FilePath)
    (r : Option Source) :
    (w.maybe_update_file_src path r).files.map Prod.fst
      = w.files.map Prod.fst := by
  rw [FileWalker.maybe_update_file_src.eq_def]
  cases hfind : w.files.find? (fun q => FileWalker.matchesPath path q.2) with
  | none => rfl
  | some e =>
    cases r with
    | none => rfl
    | some src => exact updateFirst_map_fst _ _ _

/-- Invariant of the reachable states: the counter stays at least `1`, every
key in the table is a previously issued identifier (`1 ≤ k < counter`), and
the keys are pairwise distinct. -/
theorem reachable_inv {w : FileWalker} {c : Nat}
    (h : FileWalker.Reachable w c) :
    1 ≤ c ∧ (∀ k ∈ w.files.map Prod.fst, 1 ≤ k ∧ k < c) ∧
    (w.files.map Prod.fst).Nodup := by
  induction h with
  | empty => simp [FileWalker.empty]
  | @load batch w c hr ih =>
    obtain ⟨hc, hk, hnd⟩ := ih
    obtain ⟨hids, hcnt⟩ := loadBatch_ids batch c
    simp only [FileWalker.load_files, List.map_append, hids, hcnt]
    refine ⟨by omega, ?_, ?_⟩
    · intro k hk2
      rcases List.mem_append.mp hk2 with h2 | h2
      · have := hk k h2
        omega
      · rw [List.mem_range'_1] at h2
        omega
    · rw [List.nodup_append]
      refine ⟨hnd, List.nodup_range' _ _, ?_⟩
      intro a ha ha2
      rw [List.mem_range'_1] at ha2
      have := hk a ha
      omega
  | @update path r w c hr ih =>
    rw [maybe_update_map_fst]
    obtain ⟨hc, hk, hnd⟩ := ih
    exact ⟨hc, hk, hnd⟩

/-- C7: in every reachable walker state, each of the four renderer-facing
lookups returns `none` for an identifier that is not a key of the table, and
in particular for the reserved identifier `0`, which is never issued because
the counter starts at `1`. -/
theorem c7_unknown_id_absent (w : FileWalker) (c : Nat)
    (hr : FileWalker.Reachable w c) (id : Nat)
    (habs : w.get id = none ∨ id = 0) :
    w.name id = none ∧ w.source id = none ∧
    (∀ o, w.line_index id o = none) ∧ (∀ l, w.line_range id l = none) := by
  have hget : w.get id = none := by
    rcases habs with h | h
    · exact h
    · subst h
      obtain ⟨hc, hk, hnd⟩ := reachable_inv hr
      rw [FileWalker.get]
      cases hf : w.files.find? (fun p => p.1 = 0) with
      | none => rfl
      | some e =>
        have hmem := List.mem_of_find?_eq_some hf
        have hprop := List.find?_some hf
        have h0 : e.1 = 0 := by simpa using hprop
        have := hk e.1 (List.mem_map.mpr ⟨e, hmem, rfl⟩)
        omega
  refine ⟨?_, ?_, fun o => ?_, fun l => ?_⟩ <;>
    simp [FileWalker.name, FileWalker.source, FileWalker.line_index,
      FileWalker.line_range, hget]

/-- C7 witness: on the empty walker (the initial reachable state) the four
lookups at the reserved identifier `0` and at the never-issued identifier `5`
all return `none`. -/
theorem c7_unknown_id_absent_witness :
    FileWalker.empty.name 0 = none ∧
    FileWalker.empty.source 5 = none ∧
    FileWalker.empty.line_index 0 7 = none ∧
    FileWalker.empty.line_range 0 2 = none :=
  ⟨(c7_unknown_id_absent FileWalker.empty 1 FileWalker.Reachable.empty 0
      (Or.inr rfl)).1,
   (c7_unknown_id_absent FileWalker.empty 1 FileWalker.Reachable.empty 5
      (Or.inl rfl)).2.1,
   (c7_unknown_id_absent FileWalker.empty 1 FileWalker.Reachable.empty 0
      (Or.inr rfl)).2.2.1 7,
   (c7_unknown_id_absent FileWalker.empty 1 FileWalker.Reachable.empty 0
      (Or.inr rfl)).2.2.2 2⟩

/-- C8: with the counter at `c ≥ 1` (it starts at `1` and only increments),
loading any batch issues exactly the consecutive identifiers
`c, c+1, …` — pairwise distinct, never repeating, never `0` — and leaves the
counter past them; sequential consistency of the atomic `fetch_add` totally
orders the increments even across concurrent workers, which this threaded
counter models. -/
theorem c8_ids_unique_nonzero (batch : List (Source × FilePath)) (c : Nat)
    (hc : 1 ≤ c) :
    (FileWalker.loadBatch batch c).1.map Prod.fst
      = List.range' c batch.length ∧
    ((FileWalker.loadBatch batch c).1.map Prod.fst).Nodup ∧
    0 ∉ (FileWalker.loadBatch batch c).1.map Prod.fst ∧
    (FileWalker.loadBatch batch c).2 = c + batch.length := by
  obtain ⟨hids, hcnt⟩ := loadBatch_ids batch c
  refine ⟨hids, ?_, ?_, hcnt⟩
  · rw [hids]
    exact List.nodup_range' _ _
  · rw [hids, List.mem_range'_1]
    omega

/-- C8 witness: loading two files with the counter at its initial value `1`
issues the distinct identifiers `[1, 2]` and advances the counter to `3`. -/
theorem c8_ids_unique_nonzero_witness :
    (FileWalker.loadBatch [([97], ["a.js"]), ([98], ["b.js"])] 1).1.map
        Prod.fst = List.range' 1 2 ∧
    (FileWalker.loadBatch [([97], ["a.js"]), ([98], ["b.js"])] 1).2 = 3 :=
  ⟨(c8_ids_unique_nonzero [([97], ["a.js"]), ([98], ["b.js"])] 1
      (by decide)).1,
   (c8_ids_unique_nonzero [([97], ["a.js"]), ([98], ["b.js"])] 1
      (by decide)).2.2.2⟩

/-- A record ingested from the nested path `dir/x.js`: its display-name field
is the base name `x.js`, but its path is the full `dir/x.js`. -/
def nestedFile : JsFile := (JsFile.new_concrete [] ["dir", "x.js"] 1).1

/-- C9 counterexample: for a record created from the disk path `dir/x.js`,
the `name` lookup returns the full path string `"dir/x.js"`, not the
display name `"x.js"` (the path's final component), refuting the claim at
this input. -/
theorem c9_counterexample :
    nestedFile.name = "x.js" ∧
    (FileWalker.mk [(1, nestedFile)]).name 1 = some "dir/x.js" ∧
    (FileWalker.mk [(1, nestedFile)]).name 1 ≠ some nestedFile.name := by
  refine ⟨by decide, by decide, by decide⟩

/-- C9 amended: for an identifier present in the table, `name(id)` returns
the record's path rendered as a string whenever the record has one (disk
records always do); the stored display name — which `new_concrete` derives
as the path's final component — is only the fallback used when the record
has no path. -/
theorem c9_name_is_full_path (w : FileWalker) (id : Nat) (f : JsFile)
    (hget : w.get id = some f) :
    (∀ p, f.path = some p → w.name id = some (pathToString p)) ∧
    (f.path = none → w.name id = some f.name) ∧
    (∀ (src : Source) (path : FilePath) (c : Nat),
      ((JsFile.new_concrete src path c).1).name
        = (match fileName path with | some n => n | none => "")) := by
  refine ⟨?_, ?_, fun _ _ _ => rfl⟩
  · intro p hp
    simp [FileWalker.name, hget, hp]
  · intro hp
    simp [FileWalker.name, hget, hp]

/-- C9 witness: the nested record's `name` lookup is the rendered full path
`"dir/x.js"`. -/
theorem c9_name_is_full_path_witness :
    (FileWalker.mk [(1, nestedFile)]).name 1
      = some (pathToString ["dir", "x.js"]) :=
  (c9_name_is_full_path (FileWalker.mk [(1, nestedFile)]) 1 nestedFile
    (by decide)).1 ["dir", "x.js"] (by decide)

end Rslint
